import Mathlib

set_option maxHeartbeats 1000000

/-!
Shallow embedding of the persistent faucet queue, the load and recovery
algorithm, and the worker and record breaker decision logic from
faucet.rs, together with proofs of the specification claims about them.
The recipient key type is kept abstract with decidable equality; the
in-memory HashMap is modelled as an association list, the append log as
an explicit list of entries, and the fallible store call as a boolean
flag saying whether the append persisted.
-/

/-- Error surfaced by the persistent queue operations when the append
log fails to persist an entry (faucet.rs: the store calls inside
FaucetQueueIndex return a FaucetError on failure). -/
inductive FaucetError where
  | storageError
deriving DecidableEq

/-- First matching value in an association list, modelling HashMap lookup. -/
def alistLookup {K V : Type} [DecidableEq K] : List (K × V) → K → Option V
  | [], _ => none
  | p :: rest, k => if k = p.1 then some p.2 else alistLookup rest k

/-- Drop every binding of the given key, modelling HashMap remove. -/
def alistErase {K V : Type} [DecidableEq K] : List (K × V) → K → List (K × V)
  | [], _ => []
  | p :: rest, k => if k = p.1 then alistErase rest k else p :: alistErase rest k

/-- Bind a key to a value, replacing any previous binding, modelling HashMap insert. -/
def alistInsert {K V : Type} [DecidableEq K] (l : List (K × V)) (k : K) (v : V) :
    List (K × V) :=
  (k, v) :: alistErase l k

/-- Key membership test, modelling HashMap contains. -/
def alistContains {K V : Type} [DecidableEq K] (l : List (K × V)) (k : K) : Bool :=
  (alistLookup l k).isSome

/-- State of the persistent queue index (faucet.rs lines 234 to 239): the
in-memory map from recipient keys to grants given, and the append log of
persisted entries. The AtomicStore and AppendLog handles collapse to the
list of committed entries. -/
structure FaucetQueueIndex (K : Type) where
  index : List (K × Nat)
  log : List (K × Option Nat)
deriving DecidableEq

/-- FaucetQueueIndex remove (faucet.rs lines 303 to 316): append a None
entry for the key and commit, then drop the key from the in-memory map.
The storeOk flag tells whether the append persisted; on failure the
error is returned and the state is unchanged. -/
def FaucetQueueIndex.remove {K : Type} [DecidableEq K] (s : FaucetQueueIndex K) (key : K)
    (storeOk : Bool) : Except FaucetError Unit × FaucetQueueIndex K :=
  if storeOk then
    (Except.ok (), ⟨alistErase s.index key, s.log ++ [(key, none)]⟩)
  else
    (Except.error FaucetError.storageError, s)

/-- FaucetQueueIndex insert (faucet.rs lines 249 to 267): if the key is
already in the in-memory index return false with no log write, otherwise
append a Some 0 entry, commit, and map the key to 0 in memory. -/
def FaucetQueueIndex.insert {K : Type} [DecidableEq K] (s : FaucetQueueIndex K) (key : K)
    (storeOk : Bool) : Except FaucetError Bool × FaucetQueueIndex K :=
  if alistContains s.index key then
    (Except.ok false, s)
  else if storeOk then
    (Except.ok true, ⟨alistInsert s.index key 0, s.log ++ [(key, some 0)]⟩)
  else
    (Except.error FaucetError.storageError, s)

/-- FaucetQueueIndex grant (faucet.rs lines 275 to 300): read the current
count for the key (the Rust indexing aborts when the key is absent, which
is modelled by the outer none), add granted, and either remove the key
when the new count reaches maxGrants or persist and store the new count. -/
def FaucetQueueIndex.grant {K : Type} [DecidableEq K] (s : FaucetQueueIndex K) (key : K)
    (granted maxGrants : Nat) (storeOk : Bool) :
    Option (Except FaucetError Bool × FaucetQueueIndex K) :=
  match alistLookup s.index key with
  | none => none
  | some c =>
    let grantsGiven := c + granted
    if maxGrants ≤ grantsGiven then
      match FaucetQueueIndex.remove s key storeOk with
      | (Except.ok _, s1) => some (Except.ok false, s1)
      | (Except.error e, s1) => some (Except.error e, s1)
    else if storeOk then
      some (Except.ok true,
        ⟨alistInsert s.index key grantsGiven, s.log ++ [(key, some grantsGiven)]⟩)
    else
      some (Except.error FaucetError.storageError, s)

/-- FaucetQueue grant wrapper (faucet.rs lines 429 to 435): forwards to
the index grant and converts a storage error into the answer false via
unwrap_or; the index state is whatever the inner call left behind. -/
def FaucetQueue.grant {K : Type} [DecidableEq K] (s : FaucetQueueIndex K) (key : K)
    (granted maxGrants : Nat) (storeOk : Bool) : Option (Bool × FaucetQueueIndex K) :=
  match FaucetQueueIndex.grant s key granted maxGrants storeOk with
  | none => none
  | some (Except.ok b, s1) => some (b, s1)
  | some (Except.error _, s1) => some (false, s1)

/-- Accumulator of the load loop (faucet.rs lines 335 to 345): the
first-seen map built while walking entries newest first, the processed
set, and the queue collected in reverse order. -/
structure LoadAcc (K : Type) where
  idx : List (K × Option Nat)
  processed : List K
  queueRev : List K
deriving DecidableEq

/-- One iteration of the load walk (faucet.rs lines 348 to 374) applied
to one entry, where entries arrive newest first. -/
def loadStep {K : Type} [DecidableEq K] (acc : LoadAcc K) (e : K × Option Nat) : LoadAcc K :=
  let idx := if alistContains acc.idx e.1 then acc.idx else alistInsert acc.idx e.1 e.2
  if e.1 ∈ acc.processed then ⟨idx, acc.processed, acc.queueRev⟩
  else if e.2 = some 0 then ⟨idx, e.1 :: acc.processed, acc.queueRev ++ [e.1]⟩
  else if e.2 = none then ⟨idx, e.1 :: acc.processed, acc.queueRev⟩
  else ⟨idx, acc.processed, acc.queueRev⟩

/-- The load walk over a list of entries given newest first. -/
def loadLoop {K : Type} [DecidableEq K] (acc : LoadAcc K) :
    List (K × Option Nat) → LoadAcc K
  | [] => acc
  | e :: rest => loadLoop (loadStep acc e) rest

/-- FaucetQueue load (faucet.rs lines 325 to 400): walk the persisted
entries in reverse, post-process the first-seen map by dropping None
values, and seed the channel by reversing the collected queue, pairing
each key with its reconstructed count. -/
def FaucetQueue.load {K : Type} [DecidableEq K] (entries : List (K × Option Nat)) :
    List (K × Nat) × List (K × Nat) :=
  let acc := loadLoop ⟨[], [], []⟩ entries.reverse
  let index := acc.idx.filterMap (fun p => (p.2).map (fun v => (p.1, v)))
  let channel := acc.queueRev.reverse.map (fun k => (k, (alistLookup index k).getD 0))
  (index, channel)

/-- What the worker does next after the queue grant call (faucet.rs lines
567 to 577): keep serving the same key with the updated count when the
grant said NeedsMore, otherwise break to the next request. -/
inductive WorkerNext where
  | continueKey (grants : Nat)
  | finishKey
deriving DecidableEq

/-- The worker step after a successful transfer (faucet.rs lines 567 to
577): call the queue grant and either continue with the same key or break;
the channel is untouched on this path, since a re-enqueue happens only in
the transfer failure path through queue fail. -/
def workerPostTransfer {K : Type} [DecidableEq K] (s : FaucetQueueIndex K)
    (channel : List (K × Nat)) (key : K) (grants newGrants numGrants : Nat)
    (storeOk : Bool) : Option (FaucetQueueIndex K × List (K × Nat) × WorkerNext) :=
  match FaucetQueue.grant s key newGrants numGrants storeOk with
  | none => none
  | some (needsMore, s1) =>
    if needsMore then some (s1, channel, WorkerNext.continueKey (grants + newGrants))
    else some (s1, channel, WorkerNext.finishKey)

/-- Arguments of a keystore transfer submission: the list of outputs as
pairs of recipient and amount, and the fee. -/
structure TransferCall (K : Type) where
  outputs : List (K × Nat)
  fee : Nat
deriving DecidableEq

/-- The grant decision of a worker iteration (faucet.rs lines 516 to
559): with remaining grants above one and balance at least twice the
grant size, transfer two outputs of grantSize each, otherwise one output
of grantSize; the fee is feeSize in both cases. Returns the transfer
call and the number of new grants. -/
def workerTransferCall {K : Type} (key : K) (numGrants grants balance grantSize feeSize : Nat) :
    TransferCall K × Nat :=
  if numGrants - grants > 1 ∧ balance ≥ grantSize * 2 then
    (⟨[(key, grantSize), (key, grantSize)], feeSize⟩, 2)
  else
    (⟨[(key, grantSize)], feeSize⟩, 1)

/-- Outcome of one inner iteration of break_up_records (faucet.rs lines
680 to 751). -/
inductive BreakUpAction where
  | returnTransactions
  | stopSubmitting
  | submitTransfer (outputs : List Nat) (fee : Nat)
deriving DecidableEq

/-- Largest amount among the spendable records, modelling the max_by call
on record amounts (faucet.rs lines 701 to 704). -/
def largestRecord : List Nat → Option Nat
  | [] => none
  | a :: rest =>
    match largestRecord rest with
    | none => some a
    | some b => some (max a b)

/-- One inner iteration of break_up_records (faucet.rs lines 680 to 751):
return when the spendable records plus two per pending transaction reach
numRecords; otherwise split the largest record into change and split
halves with fee zero, or stop when no record is at least twice the grant
size. -/
def breakUpStep (records : List Nat) (txCount numRecords grantSize : Nat) : BreakUpAction :=
  if numRecords ≤ records.length + 2 * txCount then
    BreakUpAction.returnTransactions
  else
    match largestRecord records with
    | some amount =>
      if grantSize * 2 ≤ amount then
        BreakUpAction.submitTransfer [amount - amount / 2, amount / 2] 0
      else
        BreakUpAction.stopSubmitting
    | none => BreakUpAction.stopSubmitting

/-- Decision of the record breaker wait loop on one wake (faucet.rs lines
624 to 653). -/
inductive BreakerDecision where
  | waitForChange
  | breakRecords
deriving DecidableEq

/-- The record breaker assessment (faucet.rs lines 624 to 653): wait when
there are already at least numRecords / 2 spendable records, or when no
record is strictly larger than twice the grant size; otherwise go break
up records. -/
def maintainCheck (records : List Nat) (numRecords grantSize : Nat) : BreakerDecision :=
  if numRecords / 2 ≤ records.length then BreakerDecision.waitForChange
  else if ¬ (records.any (fun a => decide (grantSize * 2 < a))) then
    BreakerDecision.waitForChange
  else BreakerDecision.breakRecords

/-- One operation on the persistent queue index, for reasoning about
sequences of successful calls. -/
inductive FaucetOp (K : Type) where
  | insert (key : K)
  | grant (key : K) (granted maxGrants : Nat)
  | remove (key : K)
deriving DecidableEq

/-- Run one operation with a successful store, returning the new state,
or none when the call did not return successfully. -/
def runOp {K : Type} [DecidableEq K] (s : FaucetQueueIndex K) :
    FaucetOp K → Option (FaucetQueueIndex K)
  | FaucetOp.insert key =>
    match FaucetQueueIndex.insert s key true with
    | (Except.ok _, s1) => some s1
    | (Except.error _, _) => none
  | FaucetOp.grant key granted maxGrants =>
    match FaucetQueueIndex.grant s key granted maxGrants true with
    | some (Except.ok _, s1) => some s1
    | some (Except.error _, _) => none
    | none => none
  | FaucetOp.remove key =>
    match FaucetQueueIndex.remove s key true with
    | (Except.ok _, s1) => some s1
    | (Except.error _, _) => none

/-- Run a sequence of operations from a starting state. -/
def runOps {K : Type} [DecidableEq K] (s : FaucetQueueIndex K) :
    List (FaucetOp K) → Option (FaucetQueueIndex K)
  | [] => some s
  | op :: rest => (runOp s op).bind (fun s1 => runOps s1 rest)

/-- An operation respects the faucet configuration when every grant call
uses maxGrants equal to numGrants and a positive granted count. -/
def FaucetOp.respectsB {K : Type} (numGrants : Nat) : FaucetOp K → Bool
  | FaucetOp.grant _ granted maxGrants =>
    decide (maxGrants = numGrants) && decide (1 ≤ granted)
  | _ => true

/-- Replay of a single log entry into a map, following the spec words: a
Some entry is an upsert and a None entry is a delete. -/
def replayEntry {K : Type} [DecidableEq K] (m : List (K × Nat)) (e : K × Option Nat) :
    List (K × Nat) :=
  match e.2 with
  | some n => alistInsert m e.1 n
  | none => alistErase m e.1

/-- Left fold of the whole log into an empty map, following the spec words. -/
def replayLog {K : Type} [DecidableEq K] (log : List (K × Option Nat)) : List (K × Nat) :=
  log.foldl replayEntry []

/-- Most recent log entry for a key, as the first match in the reversed log. -/
def latestEntry {K : Type} [DecidableEq K] (log : List (K × Option Nat)) (k : K) :
    Option (Option Nat) :=
  alistLookup log.reverse k

/-- Value of a key according to its most recent log entry: some v exactly
when the most recent entry for the key is Some v. -/
def latestValue {K : Type} [DecidableEq K] (log : List (K × Option Nat)) (k : K) :
    Option Nat :=
  match latestEntry log k with
  | some (some v) => some v
  | _ => none

/-- Whether some entry of the list is an enqueue or delete marker for the
key, that is a Some 0 or a None entry. -/
def hasMarkerFor {K : Type} [DecidableEq K] (entries : List (K × Option Nat)) (k : K) : Bool :=
  entries.any (fun e => decide (e.1 = k) && (decide (e.2 = some 0) || decide (e.2 = none)))

/-- Queue contents described by the spec words, oldest first: keep a
Some 0 entry exactly when no later entry for the same key is a Some 0 or
a None, so each still-pending key appears once, at its most recent
enqueue position. -/
def specQueue {K : Type} [DecidableEq K] : List (K × Option Nat) → List K
  | [] => []
  | e :: rest =>
    if e.2 = some 0 ∧ hasMarkerFor rest e.1 = false then e.1 :: specQueue rest
    else specQueue rest

/-- Keys enqueued by the load walk over a newest-first list, given an
already processed set; mirrors the processed updates of loadStep but is
independent of the first-seen map. -/
def enqRev {K : Type} [DecidableEq K] (p : List K) : List (K × Option Nat) → List K
  | [] => []
  | e :: rest =>
    if e.1 ∈ p then enqRev p rest
    else if e.2 = some 0 then e.1 :: enqRev (e.1 :: p) rest
    else if e.2 = none then enqRev (e.1 :: p) rest
    else enqRev p rest

/-- Final processed set of the load walk over a newest-first list. -/
def procRev {K : Type} [DecidableEq K] (p : List K) : List (K × Option Nat) → List K
  | [] => p
  | e :: rest =>
    if e.1 ∈ p then procRev p rest
    else if e.2 = some 0 then procRev (e.1 :: p) rest
    else if e.2 = none then procRev (e.1 :: p) rest
    else procRev p rest

/-- Invariant tying a reachable queue index state to its log: the
in-memory map agrees with the most recent log entries, and every key
whose most recent entry is a Some value is listed by the spec queue. -/
def queueInv {K : Type} [DecidableEq K] (s : FaucetQueueIndex K) : Prop :=
  (∀ k, alistLookup s.index k = latestValue s.log k) ∧
  (∀ k v, latestEntry s.log k = some (some v) → k ∈ specQueue s.log)

/-- Sample queue index state used by concrete witnesses. -/
def sampleFQI : FaucetQueueIndex Nat :=
  ⟨[(7, 3)], [(7, some 0), (7, some 3)]⟩

/-- Sample persisted log used by concrete witnesses. -/
def sampleLog : List (Nat × Option Nat) :=
  [(1, some 0), (2, some 0), (1, some 2), (3, some 0), (3, none), (2, some 0)]

/-- Sample operation sequence used by concrete witnesses. -/
def sampleOps : List (FaucetOp Nat) :=
  [FaucetOp.insert 1, FaucetOp.grant 1 2 5, FaucetOp.insert 2]

/-- State reached by running sampleOps from the empty state. -/
def sampleSt : FaucetQueueIndex Nat :=
  ⟨[(2, 0), (1, 2)], [(1, some 0), (1, some 2), (2, some 0)]⟩

theorem alistLookup_erase {K V : Type} [DecidableEq K] (l : List (K × V)) (k k1 : K) :
    alistLookup (alistErase l k) k1 = if k1 = k then none else alistLookup l k1 := by
  induction l with
  | nil => simp [alistErase, alistLookup]
  | cons p rest ih =>
    obtain ⟨a, b⟩ := p
    by_cases hpk : k = a
    · subst hpk
      by_cases h1 : k1 = k
      · subst h1
        simp [alistErase, alistLookup, ih]
      · simp [alistErase, alistLookup, h1, ih]
    · by_cases h1 : k1 = a
      · have h1k : ¬ k1 = k := fun hh => hpk (by rw [← hh, h1])
        have hak : ¬ a = k := fun hh => hpk hh.symm
        simp [alistErase, alistLookup, hpk, h1, h1k, hak]
      · simp [alistErase, alistLookup, hpk, h1, ih]

theorem alistLookup_insert {K V : Type} [DecidableEq K] (l : List (K × V)) (k : K) (v : V)
    (k1 : K) :
    alistLookup (alistInsert l k v) k1 = if k1 = k then some v else alistLookup l k1 := by
  by_cases h1 : k1 = k <;> simp [alistInsert, alistLookup, alistLookup_erase, h1]

theorem alistLookup_eq_none {K V : Type} [DecidableEq K] (l : List (K × V)) (k : K) :
    alistLookup l k = none ↔ k ∉ l.map Prod.fst := by
  induction l with
  | nil => simp [alistLookup]
  | cons p rest ih => by_cases h : k = p.1 <;> simp [alistLookup, h, ih]

theorem alistLookup_mem {K V : Type} [DecidableEq K] {l : List (K × V)} {k : K} {v : V}
    (h : alistLookup l k = some v) : (k, v) ∈ l := by
  induction l with
  | nil => simp [alistLookup] at h
  | cons p rest ih =>
    obtain ⟨a, b⟩ := p
    rw [alistLookup] at h
    by_cases hk : k = a
    · rw [if_pos (by simpa using hk)] at h
      have hb : b = v := by simpa using Option.some.inj h
      rw [hk, ← hb]
      exact List.mem_cons_self (a, b) rest
    · rw [if_neg (by simpa using hk)] at h
      exact List.mem_cons_of_mem _ (ih h)

/-- C1: for a key present with count c, a persisted grant either removes
the key with a None log entry and answers Done, or stores the updated
count with a Some entry and answers NeedsMore, depending on whether the
new count reaches maxGrants. -/
theorem FaucetQueueIndex.grant_spec {K : Type} [DecidableEq K]
    (s : FaucetQueueIndex K) (key : K) (granted maxGrants c : Nat)
    (h : alistLookup s.index key = some c) :
    (maxGrants ≤ c + granted →
      FaucetQueueIndex.grant s key granted maxGrants true =
        some (Except.ok false, ⟨alistErase s.index key, s.log ++ [(key, none)]⟩)) ∧
    (c + granted < maxGrants →
      FaucetQueueIndex.grant s key granted maxGrants true =
        some (Except.ok true,
          ⟨alistInsert s.index key (c + granted), s.log ++ [(key, some (c + granted))]⟩)) := by
  constructor
  · intro hge
    simp [FaucetQueueIndex.grant, FaucetQueueIndex.remove, h, hge]
  · intro hlt
    simp [FaucetQueueIndex.grant, h, Nat.not_le.mpr hlt]

/-- Concrete check of C1 at sampleFQI, exercising both branches. -/
theorem FaucetQueueIndex.grant_spec_witness :
    FaucetQueueIndex.grant sampleFQI 7 2 5 true =
      some (Except.ok false, ⟨alistErase sampleFQI.index 7, sampleFQI.log ++ [(7, none)]⟩) ∧
    FaucetQueueIndex.grant sampleFQI 7 1 5 true =
      some (Except.ok true,
        ⟨alistInsert sampleFQI.index 7 4, sampleFQI.log ++ [(7, some 4)]⟩) :=
  ⟨(FaucetQueueIndex.grant_spec sampleFQI 7 2 5 3 (by decide)).1 (by decide),
   (FaucetQueueIndex.grant_spec sampleFQI 7 1 5 3 (by decide)).2 (by decide)⟩

/-- C2: insert answers AlreadyPresent with no log write for a key already
in the index, otherwise persists a Some 0 entry and maps the key to 0;
hence two consecutive inserts of a fresh key answer Inserted then
AlreadyPresent and write exactly one log entry. -/
theorem FaucetQueueIndex.insert_spec {K : Type} [DecidableEq K]
    (s : FaucetQueueIndex K) (key : K) :
    (alistContains s.index key = true →
      FaucetQueueIndex.insert s key true = (Except.ok false, s)) ∧
    (alistContains s.index key = false →
      FaucetQueueIndex.insert s key true =
        (Except.ok true, ⟨alistInsert s.index key 0, s.log ++ [(key, some 0)]⟩) ∧
      ∀ s1, FaucetQueueIndex.insert s key true = (Except.ok true, s1) →
        FaucetQueueIndex.insert s1 key true = (Except.ok false, s1) ∧
        s1.log = s.log ++ [(key, some 0)]) := by
  constructor
  · intro hc
    simp [FaucetQueueIndex.insert, hc]
  · intro hc
    have h1 : FaucetQueueIndex.insert s key true =
        (Except.ok true, ⟨alistInsert s.index key 0, s.log ++ [(key, some 0)]⟩) := by
      simp [FaucetQueueIndex.insert, hc]
    refine ⟨h1, ?_⟩
    intro s1 hs1
    have h2 := h1.symm.trans hs1
    rw [Prod.mk.injEq] at h2
    rw [← h2.2]
    refine ⟨?_, rfl⟩
    simp [FaucetQueueIndex.insert, alistContains, alistLookup_insert]

/-- Concrete check of C2: the second insert of key 9 answers false and
leaves the single log entry written by the first. -/
theorem FaucetQueueIndex.insert_spec_witness :
    FaucetQueueIndex.insert (⟨[(9, 0)], [(9, some 0)]⟩ : FaucetQueueIndex Nat) 9 true =
      (Except.ok false, (⟨[(9, 0)], [(9, some 0)]⟩ : FaucetQueueIndex Nat)) ∧
    (FaucetQueueIndex.mk [(9, 0)] [(9, some 0)] : FaucetQueueIndex Nat).log =
      ([] : List (Nat × Option Nat)) ++ [(9, some 0)] :=
  ((FaucetQueueIndex.insert_spec (⟨[], []⟩ : FaucetQueueIndex Nat) 9).2 (by decide)).2
    ⟨[(9, 0)], [(9, some 0)]⟩ (by rfl)

/-- C5: when the append to the persistent log fails, each of insert,
grant and remove returns the storage error and leaves both the in-memory
index and the log exactly as they were. -/
theorem FaucetQueueIndex.storage_error_spec {K : Type} [DecidableEq K]
    (s : FaucetQueueIndex K) (key : K) (granted maxGrants c : Nat) :
    (alistContains s.index key = false →
      FaucetQueueIndex.insert s key false = (Except.error FaucetError.storageError, s)) ∧
    (alistLookup s.index key = some c →
      FaucetQueueIndex.grant s key granted maxGrants false =
        some (Except.error FaucetError.storageError, s)) ∧
    FaucetQueueIndex.remove s key false = (Except.error FaucetError.storageError, s) := by
  refine ⟨?_, ?_, ?_⟩
  · intro hc
    simp [FaucetQueueIndex.insert, hc]
  · intro h
    by_cases hge : maxGrants ≤ c + granted
    · simp [FaucetQueueIndex.grant, FaucetQueueIndex.remove, h, hge]
    · simp [FaucetQueueIndex.grant, h, hge]
  · simp [FaucetQueueIndex.remove]

/-- Concrete check of C5 at sampleFQI for all three operations. -/
theorem FaucetQueueIndex.storage_error_spec_witness :
    FaucetQueueIndex.insert sampleFQI 8 false =
      (Except.error FaucetError.storageError, sampleFQI) ∧
    FaucetQueueIndex.grant sampleFQI 7 1 5 false =
      some (Except.error FaucetError.storageError, sampleFQI) ∧
    FaucetQueueIndex.remove sampleFQI 7 false =
      (Except.error FaucetError.storageError, sampleFQI) :=
  ⟨(FaucetQueueIndex.storage_error_spec sampleFQI 8 0 0 0).1 (by decide),
   (FaucetQueueIndex.storage_error_spec sampleFQI 7 1 5 3).2.1 (by decide),
   (FaucetQueueIndex.storage_error_spec sampleFQI 7 0 0 0).2.2⟩

/-- C6: on a storage failure the queue grant wrapper answers false, the
same answer as Done, the worker therefore finishes the key without
re-enqueueing it, the channel is untouched, and the key is still in the
unchanged in-memory index. -/
theorem FaucetQueue.grant_storage_error {K : Type} [DecidableEq K]
    (s : FaucetQueueIndex K) (channel : List (K × Nat)) (key : K)
    (grants newGrants numGrants c : Nat)
    (h : alistLookup s.index key = some c) :
    FaucetQueue.grant s key newGrants numGrants false = some (false, s) ∧
    workerPostTransfer s channel key grants newGrants numGrants false =
      some (s, channel, WorkerNext.finishKey) := by
  have hg : FaucetQueueIndex.grant s key newGrants numGrants false =
      some (Except.error FaucetError.storageError, s) := by
    by_cases hge : numGrants ≤ c + newGrants
    · simp [FaucetQueueIndex.grant, FaucetQueueIndex.remove, h, hge]
    · simp [FaucetQueueIndex.grant, h, hge]
  constructor
  · simp [FaucetQueue.grant, hg]
  · simp [workerPostTransfer, FaucetQueue.grant, hg]

/-- Concrete check of C6 at sampleFQI. -/
theorem FaucetQueue.grant_storage_error_witness :
    FaucetQueue.grant sampleFQI 7 2 5 false = some (false, sampleFQI) ∧
    workerPostTransfer sampleFQI [(4, 0)] 7 3 2 5 false =
      some (sampleFQI, [(4, 0)], WorkerNext.finishKey) :=
  FaucetQueue.grant_storage_error sampleFQI [(4, 0)] 7 3 2 5 3 (by decide)

/-- C7: the worker issues two outputs of grantSize exactly when more than
one grant remains and the balance is at least twice grantSize, otherwise
one output; the fee is always feeSize; with one total grant the fast path
is never taken, and a balance one short of twice grantSize takes the
single output path. -/
theorem workerTransferCall_spec {K : Type} (key : K)
    (numGrants grants balance grantSize feeSize : Nat) :
    ((workerTransferCall key numGrants grants balance grantSize feeSize).2 = 2 ↔
      (1 < numGrants - grants ∧ grantSize * 2 ≤ balance)) ∧
    (1 < numGrants - grants ∧ grantSize * 2 ≤ balance →
      workerTransferCall key numGrants grants balance grantSize feeSize =
        (⟨[(key, grantSize), (key, grantSize)], feeSize⟩, 2)) ∧
    (¬ (1 < numGrants - grants ∧ grantSize * 2 ≤ balance) →
      workerTransferCall key numGrants grants balance grantSize feeSize =
        (⟨[(key, grantSize)], feeSize⟩, 1)) ∧
    (workerTransferCall key numGrants grants balance grantSize feeSize).1.fee = feeSize ∧
    (numGrants = 1 →
      workerTransferCall key numGrants grants balance grantSize feeSize =
        (⟨[(key, grantSize)], feeSize⟩, 1)) ∧
    (balance + 1 = grantSize * 2 → 2 ≤ numGrants - grants →
      workerTransferCall key numGrants grants balance grantSize feeSize =
        (⟨[(key, grantSize)], feeSize⟩, 1)) := by
  constructor
  · by_cases h : 1 < numGrants - grants ∧ grantSize * 2 ≤ balance <;>
      simp [workerTransferCall, h]
  constructor
  · intro h
    simp [workerTransferCall, h]
  constructor
  · intro h
    simp [workerTransferCall, h]
  constructor
  · by_cases h : 1 < numGrants - grants ∧ grantSize * 2 ≤ balance <;>
      simp [workerTransferCall, h]
  constructor
  · intro h1
    have hn : ¬ (1 < numGrants - grants ∧ grantSize * 2 ≤ balance) := by
      intro h
      have h2 : numGrants - grants ≤ 1 := by
        rw [h1]
        exact Nat.sub_le 1 grants
      exact absurd (Nat.lt_of_lt_of_le h.1 h2) (Nat.lt_irrefl 1)
    simp [workerTransferCall, hn]
  · intro hb h2
    have hn : ¬ (1 < numGrants - grants ∧ grantSize * 2 ≤ balance) := by
      intro h
      have h3 : balance < grantSize * 2 := by
        rw [← hb]
        exact Nat.lt_succ_self balance
      exact absurd (Nat.lt_of_lt_of_le h3 h.2) (Nat.lt_irrefl balance)
    simp [workerTransferCall, hn]

/-- Concrete check of C7: fast path, boundary balance, and single grant. -/
theorem workerTransferCall_spec_witness :
    workerTransferCall (7 : Nat) 5 0 10000 5000 100 =
      (⟨[(7, 5000), (7, 5000)], 100⟩, 2) ∧
    workerTransferCall (7 : Nat) 5 0 9999 5000 100 = (⟨[(7, 5000)], 100⟩, 1) ∧
    workerTransferCall (7 : Nat) 1 0 10000 5000 100 = (⟨[(7, 5000)], 100⟩, 1) :=
  ⟨(workerTransferCall_spec 7 5 0 10000 5000 100).2.1 (by decide),
   (workerTransferCall_spec 7 5 0 9999 5000 100).2.2.2.2.2 (by decide) (by decide),
   (workerTransferCall_spec 7 1 0 10000 5000 100).2.2.2.2.1 rfl⟩

theorem largestRecord_eq_none {l : List Nat} (h : largestRecord l = none) : l = [] := by
  cases l with
  | nil => rfl
  | cons a rest =>
    rw [largestRecord] at h
    cases hr : largestRecord rest <;> rw [hr] at h <;> simp at h

theorem largestRecord_le {l : List Nat} {m : Nat} (hm : largestRecord l = some m) :
    ∀ a ∈ l, a ≤ m := by
  induction l generalizing m with
  | nil => simp [largestRecord] at hm
  | cons a rest ih =>
    rw [largestRecord] at hm
    cases hr : largestRecord rest with
    | none =>
      rw [hr] at hm
      have ha := Option.some.inj hm
      intro x hx
      rcases List.mem_cons.mp hx with h1 | h1
      · rw [h1, ← ha]
      · rw [largestRecord_eq_none hr] at h1
        simp at h1
    | some b =>
      rw [hr] at hm
      have hmax := Option.some.inj hm
      intro x hx
      rcases List.mem_cons.mp hx with h1 | h1
      · rw [h1, ← hmax]
        exact Nat.le_max_left a b
      · exact Nat.le_trans (ih hr x h1) (hmax ▸ Nat.le_max_right a b)

theorem largestRecord_mem {l : List Nat} {m : Nat} (hm : largestRecord l = some m) :
    m ∈ l := by
  induction l generalizing m with
  | nil => simp [largestRecord] at hm
  | cons a rest ih =>
    rw [largestRecord] at hm
    cases hr : largestRecord rest with
    | none =>
      rw [hr] at hm
      rw [← Option.some.inj hm]
      exact List.mem_cons_self a rest
    | some b =>
      rw [hr] at hm
      have hmax := Option.some.inj hm
      rcases max_choice a b with h | h
      · rw [← hmax, h]
        exact List.mem_cons_self a rest
      · have hb : b = m := h.symm.trans hmax
        exact List.mem_cons_of_mem a (hb ▸ ih hr)

/-- C9: an inner break_up_records iteration returns the pending
transactions as soon as the spendable records plus two per transaction
reach numRecords, stops submitting when every spendable record is below
twice the grant size, and otherwise submits a self transfer with fee 0
whose outputs are the change and split halves of the largest amount, so
the two outputs sum back to that amount. -/
theorem breakUpStep_spec (records : List Nat) (txCount numRecords grantSize : Nat) :
    (numRecords ≤ records.length + 2 * txCount →
      breakUpStep records txCount numRecords grantSize = BreakUpAction.returnTransactions) ∧
    (records.length + 2 * txCount < numRecords →
      ((∀ a ∈ records, a < grantSize * 2) →
        breakUpStep records txCount numRecords grantSize = BreakUpAction.stopSubmitting) ∧
      (∀ m, largestRecord records = some m → grantSize * 2 ≤ m →
        breakUpStep records txCount numRecords grantSize =
          BreakUpAction.submitTransfer [m - m / 2, m / 2] 0 ∧ (m - m / 2) + m / 2 = m)) := by
  constructor
  · intro hge
    simp [breakUpStep, hge]
  · intro hlt
    have hn : ¬ numRecords ≤ records.length + 2 * txCount := Nat.not_le.mpr hlt
    constructor
    · intro hall
      cases hr : largestRecord records with
      | none => simp [breakUpStep, hn, hr]
      | some m =>
        have hm := hall m (largestRecord_mem hr)
        simp [breakUpStep, hn, hr, Nat.not_le.mpr hm]
    · intro m hr hge
      constructor
      · simp [breakUpStep, hn, hr, hge]
      · exact Nat.sub_add_cancel (Nat.div_le_self m 2)

/-- Concrete check of C9: a record of 12000 splits into 6000 and 6000. -/
theorem breakUpStep_spec_witness :
    breakUpStep [12000, 3000] 0 25 5000 = BreakUpAction.submitTransfer [6000, 6000] 0 ∧
    6000 + 6000 = 12000 :=
  ((breakUpStep_spec [12000, 3000] 0 25 5000).2 (by decide)).2 12000 (by decide) (by decide)

/-- C10: whenever the breaker wakes with at least numRecords / 2
spendable records it decides to wait for the next signal and submits no
transfers. -/
theorem maintainCheck_spec (records : List Nat) (numRecords grantSize : Nat)
    (h : numRecords / 2 ≤ records.length) :
    maintainCheck records numRecords grantSize = BreakerDecision.waitForChange := by
  simp [maintainCheck, h]

/-- Concrete check of C10. -/
theorem maintainCheck_spec_witness :
    maintainCheck [5000, 5000] 4 5000 = BreakerDecision.waitForChange :=
  maintainCheck_spec [5000, 5000] 4 5000 (by decide)

theorem alistLookup_append {K V : Type} [DecidableEq K] (l1 l2 : List (K × V)) (k : K) :
    alistLookup (l1 ++ l2) k =
      match alistLookup l1 k with
      | some v => some v
      | none => alistLookup l2 k := by
  induction l1 with
  | nil => simp [alistLookup]
  | cons p rest ih =>
    obtain ⟨a, b⟩ := p
    by_cases hk : k = a <;> simp [alistLookup, hk, ih]

theorem latestEntry_append {K : Type} [DecidableEq K] (l : List (K × Option Nat))
    (e : K × Option Nat) (k : K) :
    latestEntry (l ++ [e]) k = if k = e.1 then some e.2 else latestEntry l k := by
  obtain ⟨a, b⟩ := e
  simp [latestEntry, List.reverse_append, alistLookup]

theorem latestValue_append {K : Type} [DecidableEq K] (l : List (K × Option Nat))
    (e : K × Option Nat) (k : K) :
    latestValue (l ++ [e]) k = if k = e.1 then e.2 else latestValue l k := by
  unfold latestValue
  rw [latestEntry_append]
  by_cases hk : k = e.1
  · rw [if_pos hk, if_pos hk]
    cases h2 : e.2 <;> rfl
  · rw [if_neg hk, if_neg hk]

theorem latestValue_eq_some {K : Type} [DecidableEq K] {log : List (K × Option Nat)}
    {k : K} {c : Nat} (h : latestValue log k = some c) :
    latestEntry log k = some (some c) := by
  unfold latestValue at h
  cases he : latestEntry log k with
  | none =>
    rw [he] at h
    simp at h
  | some o =>
    cases o with
    | none =>
      rw [he] at h
      simp at h
    | some v =>
      rw [he] at h
      simp at h
      rw [h]

theorem hasMarkerFor_append {K : Type} [DecidableEq K] (l : List (K × Option Nat))
    (e : K × Option Nat) (k : K) :
    hasMarkerFor (l ++ [e]) k =
      (hasMarkerFor l k ||
        (decide (e.1 = k) && (decide (e.2 = some 0) || decide (e.2 = none)))) := by
  simp [hasMarkerFor, List.any_append]

theorem specQueue_append_some0 {K : Type} [DecidableEq K] (l : List (K × Option Nat))
    (key : K) :
    specQueue (l ++ [(key, some 0)]) =
      (specQueue l).filter (fun k => decide (k ≠ key)) ++ [key] := by
  induction l with
  | nil => simp [specQueue, hasMarkerFor]
  | cons e rest ih =>
    obtain ⟨a, b⟩ := e
    rw [List.cons_append, specQueue, specQueue]
    by_cases hb : b = some 0
    · by_cases hak : a = key
      · have hm : hasMarkerFor (rest ++ [(key, some 0)]) a = true := by
          rw [hasMarkerFor_append]
          simp [hak]
        rw [if_neg (fun hc => by rw [hm] at hc; exact Bool.noConfusion hc.2), ih]
        by_cases hmr : hasMarkerFor rest a = false
        · rw [if_pos ⟨hb, hmr⟩, List.filter_cons]
          simp [hak]
        · rw [if_neg (fun hc => hmr hc.2)]
      · have hka : ¬ key = a := fun hh => hak hh.symm
        have hmeq : hasMarkerFor (rest ++ [(key, some 0)]) a = hasMarkerFor rest a := by
          rw [hasMarkerFor_append]
          simp [hka]
        by_cases hmr : hasMarkerFor rest a = false
        · rw [if_pos ⟨hb, by rw [hmeq]; exact hmr⟩, if_pos ⟨hb, hmr⟩, ih, List.filter_cons]
          simp [hak]
        · rw [if_neg (fun hc => hmr (by rw [← hmeq]; exact hc.2)),
            if_neg (fun hc => hmr hc.2), ih]
    · rw [if_neg (fun hc => hb hc.1), if_neg (fun hc => hb hc.1), ih]

theorem specQueue_append_none {K : Type} [DecidableEq K] (l : List (K × Option Nat))
    (key : K) :
    specQueue (l ++ [(key, none)]) = (specQueue l).filter (fun k => decide (k ≠ key)) := by
  induction l with
  | nil => simp [specQueue]
  | cons e rest ih =>
    obtain ⟨a, b⟩ := e
    rw [List.cons_append, specQueue, specQueue]
    by_cases hb : b = some 0
    · by_cases hak : a = key
      · have hm : hasMarkerFor (rest ++ [(key, none)]) a = true := by
          rw [hasMarkerFor_append]
          simp [hak]
        rw [if_neg (fun hc => by rw [hm] at hc; exact Bool.noConfusion hc.2), ih]
        by_cases hmr : hasMarkerFor rest a = false
        · rw [if_pos ⟨hb, hmr⟩, List.filter_cons]
          simp [hak]
        · rw [if_neg (fun hc => hmr hc.2)]
      · have hka : ¬ key = a := fun hh => hak hh.symm
        have hmeq : hasMarkerFor (rest ++ [(key, none)]) a = hasMarkerFor rest a := by
          rw [hasMarkerFor_append]
          simp [hka]
        by_cases hmr : hasMarkerFor rest a = false
        · rw [if_pos ⟨hb, by rw [hmeq]; exact hmr⟩, if_pos ⟨hb, hmr⟩, ih, List.filter_cons]
          simp [hak]
        · rw [if_neg (fun hc => hmr (by rw [← hmeq]; exact hc.2)),
            if_neg (fun hc => hmr hc.2), ih]
    · rw [if_neg (fun hc => hb hc.1), if_neg (fun hc => hb hc.1), ih]

theorem specQueue_append_other {K : Type} [DecidableEq K] (l : List (K × Option Nat))
    (key : K) (v : Nat) (hv : ¬ v = 0) :
    specQueue (l ++ [(key, some v)]) = specQueue l := by
  induction l with
  | nil => simp [specQueue, hv]
  | cons e rest ih =>
    obtain ⟨a, b⟩ := e
    rw [List.cons_append, specQueue, specQueue]
    have hmeq : hasMarkerFor (rest ++ [(key, some v)]) a = hasMarkerFor rest a := by
      rw [hasMarkerFor_append]
      simp [hv]
    rw [hmeq, ih]

theorem queueInv_empty {K : Type} [DecidableEq K] :
    queueInv (⟨[], []⟩ : FaucetQueueIndex K) := by
  constructor
  · intro k
    simp [alistLookup, latestValue, latestEntry]
  · intro k v h
    simp [latestEntry, alistLookup] at h

theorem queueInv_insertEntry {K : Type} [DecidableEq K] {s : FaucetQueueIndex K}
    (key : K) (n : Nat) (hs : queueInv s)
    (hn : n = 0 ∨ ∃ c, alistLookup s.index key = some c) :
    queueInv ⟨alistInsert s.index key n, s.log ++ [(key, some n)]⟩ := by
  obtain ⟨ha, hb⟩ := hs
  constructor
  · intro k
    show alistLookup (alistInsert s.index key n) k =
      latestValue (s.log ++ [(key, some n)]) k
    rw [alistLookup_insert, latestValue_append]
    by_cases hk : k = key
    · rw [if_pos hk, if_pos (by simpa using hk)]
    · rw [if_neg hk, if_neg (by simpa using hk)]
      exact ha k
  · intro k v hlat
    show k ∈ specQueue (s.log ++ [(key, some n)])
    by_cases h0 : n = 0
    · subst h0
      rw [specQueue_append_some0]
      by_cases hk : k = key
      · subst hk
        exact List.mem_append.mpr (Or.inr (List.mem_singleton.mpr rfl))
      · rw [latestEntry_append, if_neg (by simpa using hk)] at hlat
        exact List.mem_append.mpr
          (Or.inl (List.mem_filter.mpr ⟨hb k v hlat, by simp [hk]⟩))
    · rw [specQueue_append_other _ _ _ h0]
      by_cases hk : k = key
      · subst hk
        rcases hn with hn0 | ⟨c, hc⟩
        · exact absurd hn0 h0
        · have hv1 : latestValue s.log k = some c := by
            rw [← ha k]
            exact hc
          exact hb k c (latestValue_eq_some hv1)
      · rw [latestEntry_append, if_neg (by simpa using hk)] at hlat
        exact hb k v hlat

theorem queueInv_removeEntry {K : Type} [DecidableEq K] {s : FaucetQueueIndex K}
    (key : K) (hs : queueInv s) :
    queueInv ⟨alistErase s.index key, s.log ++ [(key, none)]⟩ := by
  obtain ⟨ha, hb⟩ := hs
  constructor
  · intro k
    show alistLookup (alistErase s.index key) k = latestValue (s.log ++ [(key, none)]) k
    rw [alistLookup_erase, latestValue_append]
    by_cases hk : k = key
    · rw [if_pos hk, if_pos (by simpa using hk)]
    · rw [if_neg hk, if_neg (by simpa using hk)]
      exact ha k
  · intro k v hlat
    show k ∈ specQueue (s.log ++ [(key, none)])
    rw [specQueue_append_none]
    rw [latestEntry_append] at hlat
    by_cases hk : k = key
    · rw [if_pos (by simpa using hk)] at hlat
      simp at hlat
    · rw [if_neg (by simpa using hk)] at hlat
      exact List.mem_filter.mpr ⟨hb k v hlat, by simp [hk]⟩

theorem queueInv_runOp {K : Type} [DecidableEq K] {s s1 : FaucetQueueIndex K}
    {op : FaucetOp K} (hs : queueInv s) (h : runOp s op = some s1) : queueInv s1 := by
  cases op with
  | insert key =>
    by_cases hc : alistContains s.index key = true
    · have hr : runOp s (FaucetOp.insert key) = some s := by
        simp [runOp, FaucetQueueIndex.insert, hc]
      rw [hr] at h
      cases Option.some.inj h
      exact hs
    · have hcf : alistContains s.index key = false := by simpa using hc
      have hr : runOp s (FaucetOp.insert key) =
          some ⟨alistInsert s.index key 0, s.log ++ [(key, some 0)]⟩ := by
        simp [runOp, FaucetQueueIndex.insert, hcf]
      rw [hr] at h
      cases Option.some.inj h
      exact queueInv_insertEntry key 0 hs (Or.inl rfl)
  | grant key granted maxGrants =>
    cases hl : alistLookup s.index key with
    | none => simp [runOp, FaucetQueueIndex.grant, hl] at h
    | some c =>
      by_cases hge : maxGrants ≤ c + granted
      · have hr : runOp s (FaucetOp.grant key granted maxGrants) =
            some ⟨alistErase s.index key, s.log ++ [(key, none)]⟩ := by
          simp [runOp, FaucetQueueIndex.grant, FaucetQueueIndex.remove, hl, hge]
        rw [hr] at h
        cases Option.some.inj h
        exact queueInv_removeEntry key hs
      · have hr : runOp s (FaucetOp.grant key granted maxGrants) =
            some ⟨alistInsert s.index key (c + granted),
              s.log ++ [(key, some (c + granted))]⟩ := by
          simp [runOp, FaucetQueueIndex.grant, hl, hge]
        rw [hr] at h
        cases Option.some.inj h
        exact queueInv_insertEntry key (c + granted) hs (Or.inr ⟨c, hl⟩)
  | remove key =>
    have hr : runOp s (FaucetOp.remove key) =
        some ⟨alistErase s.index key, s.log ++ [(key, none)]⟩ := by
      simp [runOp, FaucetQueueIndex.remove]
    rw [hr] at h
    cases Option.some.inj h
    exact queueInv_removeEntry key hs

theorem queueInv_runOps {K : Type} [DecidableEq K] (ops : List (FaucetOp K)) :
    ∀ s s1 : FaucetQueueIndex K, queueInv s → runOps s ops = some s1 → queueInv s1 := by
  induction ops with
  | nil =>
    intro s s1 hs h
    rw [runOps] at h
    cases Option.some.inj h
    exact hs
  | cons op rest ih =>
    intro s s1 hs h
    rw [runOps] at h
    cases ho : runOp s op with
    | none =>
      rw [ho] at h
      simp at h
    | some s2 =>
      rw [ho] at h
      simp only [Option.bind] at h
      exact ih s2 s1 (queueInv_runOp hs ho) h

theorem lookup_foldl_replay {K : Type} [DecidableEq K] (l : List (K × Option Nat)) :
    ∀ (m : List (K × Nat)) (k : K),
      alistLookup (List.foldl replayEntry m l) k =
        match latestEntry l k with
        | some o => o
        | none => alistLookup m k := by
  induction l with
  | nil =>
    intro m k
    simp [latestEntry, alistLookup]
  | cons e rest ih =>
    intro m k
    rw [List.foldl_cons, ih]
    have hle : latestEntry (e :: rest) k =
        match latestEntry rest k with
        | some o => some o
        | none => if k = e.1 then some e.2 else none := by
      unfold latestEntry
      rw [List.reverse_cons, alistLookup_append]
      cases alistLookup rest.reverse k <;> simp [alistLookup]
    rw [hle]
    cases hr : latestEntry rest k with
    | some o => rfl
    | none =>
      by_cases hk : k = e.1
      · rw [if_pos hk]
        cases h2 : e.2 <;>
          simp [replayEntry, h2, alistLookup_insert, alistLookup_erase, hk]
      · rw [if_neg hk]
        cases h2 : e.2 <;>
          simp [replayEntry, h2, alistLookup_insert, alistLookup_erase, hk]

theorem lookup_replayLog {K : Type} [DecidableEq K] (log : List (K × Option Nat)) (k : K) :
    alistLookup (replayLog log) k = latestValue log k := by
  unfold replayLog
  rw [lookup_foldl_replay]
  unfold latestValue
  cases he : latestEntry log k with
  | none => simp [alistLookup]
  | some o => cases o <;> rfl

/-- C4: after any sequence of successful operations from the empty state,
the in-memory index agrees pointwise with the left fold of the appended
log into an empty map, where a Some entry is an upsert and a None entry
is a delete. -/
theorem runOps_replay {K : Type} [DecidableEq K] (ops : List (FaucetOp K))
    (st : FaucetQueueIndex K)
    (h : runOps (⟨[], []⟩ : FaucetQueueIndex K) ops = some st) :
    ∀ k, alistLookup st.index k = alistLookup (replayLog st.log) k := by
  have hinv := queueInv_runOps ops _ st queueInv_empty h
  intro k
  rw [hinv.1 k, lookup_replayLog]

/-- Concrete check of C4 on sampleOps. -/
theorem runOps_replay_witness :
    alistLookup sampleSt.index 1 = alistLookup (replayLog sampleSt.log) 1 ∧
    alistLookup sampleSt.index 1 = some 2 :=
  ⟨runOps_replay sampleOps sampleSt (by decide) 1, by decide⟩

theorem countBound_runOp {K : Type} [DecidableEq K] {s s1 : FaucetQueueIndex K}
    {op : FaucetOp K} {n : Nat} (hn : 1 ≤ n) (hop : FaucetOp.respectsB n op = true)
    (hs : ∀ k c, alistLookup s.index k = some c → c < n)
    (h : runOp s op = some s1) :
    ∀ k c, alistLookup s1.index k = some c → c < n := by
  cases op with
  | insert key =>
    by_cases hc : alistContains s.index key = true
    · have hr : runOp s (FaucetOp.insert key) = some s := by
        simp [runOp, FaucetQueueIndex.insert, hc]
      rw [hr] at h
      cases Option.some.inj h
      exact hs
    · have hcf : alistContains s.index key = false := by simpa using hc
      have hr : runOp s (FaucetOp.insert key) =
          some ⟨alistInsert s.index key 0, s.log ++ [(key, some 0)]⟩ := by
        simp [runOp, FaucetQueueIndex.insert, hcf]
      rw [hr] at h
      cases Option.some.inj h
      intro k c hkc
      rw [alistLookup_insert] at hkc
      by_cases hk : k = key
      · rw [if_pos hk] at hkc
        rw [← Option.some.inj hkc]
        exact hn
      · rw [if_neg hk] at hkc
        exact hs k c hkc
  | grant key granted maxGrants =>
    have hresp : maxGrants = n := by
      have := hop
      simp [FaucetOp.respectsB] at this
      exact this.1
    cases hl : alistLookup s.index key with
    | none => simp [runOp, FaucetQueueIndex.grant, hl] at h
    | some c0 =>
      by_cases hge : maxGrants ≤ c0 + granted
      · have hr : runOp s (FaucetOp.grant key granted maxGrants) =
            some ⟨alistErase s.index key, s.log ++ [(key, none)]⟩ := by
          simp [runOp, FaucetQueueIndex.grant, FaucetQueueIndex.remove, hl, hge]
        rw [hr] at h
        cases Option.some.inj h
        intro k c hkc
        rw [alistLookup_erase] at hkc
        by_cases hk : k = key
        · rw [if_pos hk] at hkc
          simp at hkc
        · rw [if_neg hk] at hkc
          exact hs k c hkc
      · have hr : runOp s (FaucetOp.grant key granted maxGrants) =
            some ⟨alistInsert s.index key (c0 + granted),
              s.log ++ [(key, some (c0 + granted))]⟩ := by
          simp [runOp, FaucetQueueIndex.grant, hl, hge]
        rw [hr] at h
        cases Option.some.inj h
        intro k c hkc
        rw [alistLookup_insert] at hkc
        by_cases hk : k = key
        · rw [if_pos hk] at hkc
          rw [← Option.some.inj hkc, ← hresp]
          exact Nat.not_le.mp hge
        · rw [if_neg hk] at hkc
          exact hs k c hkc
  | remove key =>
    have hr : runOp s (FaucetOp.remove key) =
        some ⟨alistErase s.index key, s.log ++ [(key, none)]⟩ := by
      simp [runOp, FaucetQueueIndex.remove]
    rw [hr] at h
    cases Option.some.inj h
    intro k c hkc
    rw [alistLookup_erase] at hkc
    by_cases hk : k = key
    · rw [if_pos hk] at hkc
      simp at hkc
    · rw [if_neg hk] at hkc
      exact hs k c hkc

/-- C8 counterexample: with num_grants equal to 0 every hypothesis of the
claim holds for the one-insert sequence, there is no grant whose
arguments could violate the side conditions, yet the inserted key has
count 0 which is not strictly below num_grants. -/
theorem runOps_count_bound_cex :
    runOps (⟨[], []⟩ : FaucetQueueIndex Nat) [FaucetOp.insert 0] =
      some ⟨[(0, 0)], [(0, some 0)]⟩ ∧
    (∀ op ∈ ([FaucetOp.insert 0] : List (FaucetOp Nat)), FaucetOp.respectsB 0 op = true) ∧
    alistLookup ([(0, 0)] : List (Nat × Nat)) 0 = some 0 ∧ ¬ (0 < (0 : Nat)) := by
  refine ⟨by decide, by decide, by decide, by decide⟩

/-- C8, amended with the extra hypothesis that num_grants is at least 1:
in every state reachable by successful operations from the empty state,
where each grant uses maxGrants equal to numGrants and granted at least
1, every key in the in-memory index has a count between 0 inclusive and
numGrants exclusive. -/
theorem runOps_count_bound {K : Type} [DecidableEq K] (n : Nat) (ops : List (FaucetOp K))
    (st : FaucetQueueIndex K) (hn : 1 ≤ n)
    (hops : ∀ op ∈ ops, FaucetOp.respectsB n op = true)
    (h : runOps (⟨[], []⟩ : FaucetQueueIndex K) ops = some st) :
    ∀ k c, alistLookup st.index k = some c → 0 ≤ c ∧ c < n := by
  have main : ∀ (l : List (FaucetOp K)) (s s1 : FaucetQueueIndex K),
      (∀ op ∈ l, FaucetOp.respectsB n op = true) →
      (∀ k c, alistLookup s.index k = some c → c < n) →
      runOps s l = some s1 → ∀ k c, alistLookup s1.index k = some c → c < n := by
    intro l
    induction l with
    | nil =>
      intro s s1 _ hs hrun
      rw [runOps] at hrun
      cases Option.some.inj hrun
      exact hs
    | cons op rest ih =>
      intro s s1 hl hs hrun
      rw [runOps] at hrun
      cases ho : runOp s op with
      | none =>
        rw [ho] at hrun
        simp at hrun
      | some s2 =>
        rw [ho] at hrun
        simp only [Option.bind] at hrun
        exact ih s2 s1 (fun op1 h1 => hl op1 (List.mem_cons_of_mem _ h1))
          (countBound_runOp hn (hl op (List.mem_cons_self _ _)) hs ho) hrun
  intro k c hkc
  refine ⟨Nat.zero_le c, ?_⟩
  exact main ops _ st hops (fun k1 c1 h1 => by simp [alistLookup] at h1) h k c hkc

/-- Concrete check of the amended C8. -/
theorem runOps_count_bound_witness : (0 : Nat) ≤ 1 ∧ 1 < 2 :=
  runOps_count_bound 2 [FaucetOp.insert 1, FaucetOp.grant 1 1 2]
    ⟨[(1, 1)], [(1, some 0), (1, some 1)]⟩ (by decide) (by decide) (by decide) 1 1 (by decide)

theorem loadStep_idx {K : Type} [DecidableEq K] (acc : LoadAcc K) (e : K × Option Nat) :
    (loadStep acc e).idx =
      if alistContains acc.idx e.1 then acc.idx else alistInsert acc.idx e.1 e.2 := by
  unfold loadStep
  by_cases h1 : e.1 ∈ acc.processed
  · simp [h1]
  · by_cases h2 : e.2 = some 0
    · simp [h1, h2]
    · by_cases h3 : e.2 = none <;> simp [h1, h2, h3]

theorem loadStep_processed {K : Type} [DecidableEq K] (acc : LoadAcc K) (e : K × Option Nat) :
    (loadStep acc e).processed =
      if e.1 ∈ acc.processed then acc.processed
      else if e.2 = some 0 then e.1 :: acc.processed
      else if e.2 = none then e.1 :: acc.processed
      else acc.processed := by
  unfold loadStep
  by_cases h1 : e.1 ∈ acc.processed
  · simp [h1]
  · by_cases h2 : e.2 = some 0
    · simp [h1, h2]
    · by_cases h3 : e.2 = none <;> simp [h1, h2, h3]

theorem loadStep_queueRev {K : Type} [DecidableEq K] (acc : LoadAcc K) (e : K × Option Nat) :
    (loadStep acc e).queueRev =
      if e.1 ∈ acc.processed then acc.queueRev
      else if e.2 = some 0 then acc.queueRev ++ [e.1]
      else acc.queueRev := by
  unfold loadStep
  by_cases h1 : e.1 ∈ acc.processed
  · simp [h1]
  · by_cases h2 : e.2 = some 0
    · simp [h1, h2]
    · by_cases h3 : e.2 = none <;> simp [h1, h2, h3]

theorem loadLoop_idx {K : Type} [DecidableEq K] (l : List (K × Option Nat)) :
    ∀ (acc : LoadAcc K) (k : K),
      alistLookup (loadLoop acc l).idx k =
        match alistLookup acc.idx k with
        | some o => some o
        | none => alistLookup l k := by
  induction l with
  | nil =>
    intro acc k
    rw [loadLoop]
    cases alistLookup acc.idx k <;> simp [alistLookup]
  | cons e rest ih =>
    intro acc k
    rw [loadLoop, ih, loadStep_idx]
    by_cases hc : alistContains acc.idx e.1
    · rw [if_pos hc]
      cases ha : alistLookup acc.idx k with
      | some o => rfl
      | none =>
        have hk : ¬ k = e.1 := by
          intro hh
          rw [hh] at ha
          rw [alistContains, ha] at hc
          simp at hc
        simp [alistLookup, hk]
    · rw [if_neg hc]
      have he : alistLookup acc.idx e.1 = none := by
        rw [alistContains] at hc
        cases hx : alistLookup acc.idx e.1
        · rfl
        · rw [hx] at hc
          simp at hc
      rw [alistLookup_insert]
      by_cases hk : k = e.1
      · rw [if_pos hk, hk, he]
        simp [alistLookup]
      · rw [if_neg hk]
        cases ha : alistLookup acc.idx k with
        | some o => rfl
        | none => simp [alistLookup, hk]

theorem alistErase_of_not_mem {K V : Type} [DecidableEq K] {l : List (K × V)} {k : K}
    (h : k ∉ l.map Prod.fst) : alistErase l k = l := by
  induction l with
  | nil => rfl
  | cons p rest ih =>
    obtain ⟨a, b⟩ := p
    have h1 : ¬ k = a := by
      intro hh
      apply h
      rw [List.map_cons]
      subst hh
      exact List.mem_cons_self _ _
    have h2 : k ∉ rest.map Prod.fst := by
      intro hh
      apply h
      rw [List.map_cons]
      exact List.mem_cons_of_mem _ hh
    rw [alistErase, if_neg (by simpa using h1), ih h2]

theorem loadLoop_nodup {K : Type} [DecidableEq K] (l : List (K × Option Nat)) :
    ∀ acc : LoadAcc K, (acc.idx.map Prod.fst).Nodup →
      ((loadLoop acc l).idx.map Prod.fst).Nodup := by
  induction l with
  | nil =>
    intro acc h
    exact h
  | cons e rest ih =>
    intro acc h
    rw [loadLoop]
    apply ih
    rw [loadStep_idx]
    by_cases hc : alistContains acc.idx e.1
    · rw [if_pos hc]
      exact h
    · rw [if_neg hc]
      have he : alistLookup acc.idx e.1 = none := by
        rw [alistContains] at hc
        cases hx : alistLookup acc.idx e.1
        · rfl
        · rw [hx] at hc
          simp at hc
      have hnm : e.1 ∉ acc.idx.map Prod.fst := (alistLookup_eq_none _ _).mp he
      rw [alistInsert, alistErase_of_not_mem hnm]
      simp [List.nodup_cons, hnm, h]

theorem alistLookup_filterMap {K : Type} [DecidableEq K] (idx : List (K × Option Nat)) :
    (idx.map Prod.fst).Nodup → ∀ k,
      alistLookup (idx.filterMap (fun p => (p.2).map (fun v => (p.1, v)))) k =
        match alistLookup idx k with
        | some (some v) => some v
        | _ => none := by
  induction idx with
  | nil =>
    intro _ k
    simp [alistLookup]
  | cons p rest ih =>
    intro hnd k
    obtain ⟨a, b⟩ := p
    rw [List.map_cons, List.nodup_cons] at hnd
    obtain ⟨hna, hnr⟩ := hnd
    cases b with
    | some v =>
      rw [List.filterMap_cons]
      by_cases hk : k = a
      · simp [alistLookup, hk]
      · simp [alistLookup, hk, ih hnr]
    | none =>
      rw [List.filterMap_cons]
      by_cases hk : k = a
      · have hrest : alistLookup rest a = none := by
          apply (alistLookup_eq_none _ _).mpr
          simpa using hna
        simp [alistLookup, hk, ih hnr, hrest]
      · simp [alistLookup, hk, ih hnr]

theorem loadLoop_queue {K : Type} [DecidableEq K] (l : List (K × Option Nat)) :
    ∀ acc : LoadAcc K,
      (loadLoop acc l).queueRev = acc.queueRev ++ enqRev acc.processed l ∧
      (loadLoop acc l).processed = procRev acc.processed l := by
  induction l with
  | nil =>
    intro acc
    simp [loadLoop, enqRev, procRev]
  | cons e rest ih =>
    intro acc
    rw [loadLoop]
    obtain ⟨ihq, ihp⟩ := ih (loadStep acc e)
    constructor
    · rw [ihq, loadStep_queueRev, loadStep_processed, enqRev]
      by_cases h1 : e.1 ∈ acc.processed
      · simp [h1]
      · by_cases h2 : e.2 = some 0
        · simp [h1, h2]
        · by_cases h3 : e.2 = none <;> simp [h1, h2, h3]
    · rw [ihp, loadStep_processed, procRev]
      by_cases h1 : e.1 ∈ acc.processed
      · simp [h1]
      · by_cases h2 : e.2 = some 0
        · simp [h1, h2]
        · by_cases h3 : e.2 = none <;> simp [h1, h2, h3]

theorem procRev_append {K : Type} [DecidableEq K] (l1 : List (K × Option Nat)) :
    ∀ (p : List K) (l2 : List (K × Option Nat)),
      procRev p (l1 ++ l2) = procRev (procRev p l1) l2 := by
  induction l1 with
  | nil =>
    intro p l2
    rfl
  | cons e rest ih =>
    intro p l2
    rw [List.cons_append, procRev, procRev]
    by_cases h1 : e.1 ∈ p
    · simp only [if_pos h1]
      rw [ih]
    · simp only [if_neg h1]
      by_cases h2 : e.2 = some 0
      · simp only [if_pos h2]
        rw [ih]
      · simp only [if_neg h2]
        by_cases h3 : e.2 = none
        · simp only [if_pos h3]
          rw [ih]
        · simp only [if_neg h3]
          rw [ih]

theorem enqRev_append {K : Type} [DecidableEq K] (l1 : List (K × Option Nat)) :
    ∀ (p : List K) (l2 : List (K × Option Nat)),
      enqRev p (l1 ++ l2) = enqRev p l1 ++ enqRev (procRev p l1) l2 := by
  induction l1 with
  | nil =>
    intro p l2
    rfl
  | cons e rest ih =>
    intro p l2
    rw [List.cons_append, enqRev, enqRev, procRev]
    by_cases h1 : e.1 ∈ p
    · simp only [if_pos h1]
      rw [ih]
    · simp only [if_neg h1]
      by_cases h2 : e.2 = some 0
      · simp only [if_pos h2]
        rw [ih, List.cons_append]
      · simp only [if_neg h2]
        by_cases h3 : e.2 = none
        · simp only [if_pos h3]
          rw [ih]
        · simp only [if_neg h3]
          rw [ih]

theorem mem_procRev {K : Type} [DecidableEq K] (l : List (K × Option Nat)) :
    ∀ (p : List K) (k : K),
      k ∈ procRev p l ↔ k ∈ p ∨ hasMarkerFor l k = true := by
  induction l with
  | nil =>
    intro p k
    simp [procRev, hasMarkerFor]
  | cons e rest ih =>
    intro p k
    rw [procRev]
    by_cases hek : e.1 = k
    · have hmk : hasMarkerFor (e :: rest) k =
          ((decide (e.2 = some 0) || decide (e.2 = none)) || hasMarkerFor rest k) := by
        simp [hasMarkerFor, hek]
      by_cases h1 : e.1 ∈ p
      · have hkp : k ∈ p := hek ▸ h1
        rw [if_pos h1, ih]
        simp [hkp]
      · rw [if_neg h1]
        by_cases h2 : e.2 = some 0
        · rw [if_pos h2, ih, hmk]
          simp [h2, hek, List.mem_cons]
        · rw [if_neg h2]
          by_cases h3 : e.2 = none
          · rw [if_pos h3, ih, hmk]
            simp [h3, List.mem_cons]
            exact Or.inl (Or.inl hek.symm)
          · rw [if_neg h3, ih, hmk]
            simp [h2, h3]
    · have hmk : hasMarkerFor (e :: rest) k = hasMarkerFor rest k := by
        simp [hasMarkerFor, hek]
      by_cases h1 : e.1 ∈ p
      · rw [if_pos h1, ih, hmk]
      · rw [if_neg h1]
        have hke : ¬ k = e.1 := fun hh => hek hh.symm
        by_cases h2 : e.2 = some 0
        · rw [if_pos h2, ih, hmk]
          simp [List.mem_cons, hke]
        · rw [if_neg h2]
          by_cases h3 : e.2 = none
          · rw [if_pos h3, ih, hmk]
            simp [List.mem_cons, hke]
          · rw [if_neg h3, ih, hmk]

theorem hasMarkerFor_reverse {K : Type} [DecidableEq K] (l : List (K × Option Nat)) (k : K) :
    hasMarkerFor l.reverse k = hasMarkerFor l k := by
  induction l with
  | nil => rfl
  | cons e rest ih =>
    unfold hasMarkerFor at ih ⊢
    rw [List.reverse_cons, List.any_append, ih]
    simp [List.any_cons, Bool.or_comm]

theorem enqRev_reverse {K : Type} [DecidableEq K] (entries : List (K × Option Nat)) :
    enqRev [] entries.reverse = (specQueue entries).reverse := by
  induction entries with
  | nil => rfl
  | cons e rest ih =>
    rw [List.reverse_cons, enqRev_append, ih, specQueue]
    have henq : enqRev (procRev [] rest.reverse) [e] =
        if e.2 = some 0 ∧ hasMarkerFor rest e.1 = false then [e.1] else [] := by
      rw [enqRev]
      by_cases h1 : e.1 ∈ procRev [] rest.reverse
      · have hm : hasMarkerFor rest e.1 = true := by
          rcases (mem_procRev rest.reverse [] e.1).mp h1 with h | h
          · simp at h
          · rw [← hasMarkerFor_reverse]
            exact h
        rw [if_pos h1, if_neg (fun hc => by rw [hm] at hc; exact Bool.noConfusion hc.2)]
        rfl
      · rw [if_neg h1]
        have hm : hasMarkerFor rest e.1 = false := by
          cases hx : hasMarkerFor rest e.1
          · rfl
          · exfalso
            apply h1
            apply (mem_procRev rest.reverse [] e.1).mpr
            right
            rw [hasMarkerFor_reverse]
            exact hx
        by_cases h2 : e.2 = some 0
        · rw [if_pos h2, if_pos ⟨h2, hm⟩]
          rfl
        · rw [if_neg h2]
          have hrhs : ¬ (e.2 = some 0 ∧ hasMarkerFor rest e.1 = false) :=
            fun hcc => h2 hcc.1
          by_cases h3 : e.2 = none
          · rw [if_pos h3, if_neg hrhs]
            rfl
          · rw [if_neg h3, if_neg hrhs]
            rfl
    rw [henq]
    by_cases hc : e.2 = some 0 ∧ hasMarkerFor rest e.1 = false
    · rw [if_pos hc, if_pos hc, List.reverse_cons]
    · rw [if_neg hc, if_neg hc, List.append_nil]

theorem mem_specQueue {K : Type} [DecidableEq K] (l : List (K × Option Nat)) (k : K) :
    k ∈ specQueue l ↔
      ∃ pre post, l = pre ++ (k, some 0) :: post ∧ hasMarkerFor post k = false := by
  induction l with
  | nil =>
    constructor
    · intro h
      simp [specQueue] at h
    · rintro ⟨pre, post, h, _⟩
      cases pre <;> simp at h
  | cons e rest ih =>
    obtain ⟨a, b⟩ := e
    rw [specQueue]
    by_cases hc : b = some 0 ∧ hasMarkerFor rest a = false
    · rw [if_pos hc]
      constructor
      · intro hmem
        rcases List.mem_cons.mp hmem with hk | hk
        · refine ⟨[], rest, ?_, ?_⟩
          · rw [List.nil_append, hc.1, hk]
          · rw [hk]
            exact hc.2
        · rcases ih.mp hk with ⟨pre, post, hsplit, hmk⟩
          exact ⟨(a, b) :: pre, post, by rw [hsplit, List.cons_append], hmk⟩
      · rintro ⟨pre, post, hsplit, hmk⟩
        cases pre with
        | nil =>
          rw [List.nil_append, List.cons.injEq] at hsplit
          have h1 := hsplit.1
          rw [Prod.mk.injEq] at h1
          exact List.mem_cons.mpr (Or.inl h1.1.symm)
        | cons q pre1 =>
          rw [List.cons_append, List.cons.injEq] at hsplit
          exact List.mem_cons.mpr (Or.inr (ih.mpr ⟨pre1, post, hsplit.2, hmk⟩))
    · rw [if_neg hc]
      constructor
      · intro hmem
        rcases ih.mp hmem with ⟨pre, post, hsplit, hmk⟩
        exact ⟨(a, b) :: pre, post, by rw [hsplit, List.cons_append], hmk⟩
      · rintro ⟨pre, post, hsplit, hmk⟩
        cases pre with
        | nil =>
          rw [List.nil_append, List.cons.injEq] at hsplit
          exfalso
          apply hc
          obtain ⟨h1, h2⟩ := hsplit
          rw [Prod.mk.injEq] at h1
          refine ⟨h1.2, ?_⟩
          rw [h2, h1.1]
          exact hmk
        | cons q pre1 =>
          rw [List.cons_append, List.cons.injEq] at hsplit
          exact ih.mpr ⟨pre1, post, hsplit.2, hmk⟩

theorem latest_of_mem_specQueue {K : Type} [DecidableEq K] {l : List (K × Option Nat)}
    {k : K} (h : k ∈ specQueue l) : ∃ w, latestEntry l k = some (some w) := by
  rcases (mem_specQueue l k).mp h with ⟨pre, post, hsplit, hmk⟩
  subst hsplit
  unfold latestEntry
  rw [List.reverse_append, List.reverse_cons, alistLookup_append, alistLookup_append]
  cases hp : alistLookup post.reverse k with
  | none =>
    refine ⟨0, ?_⟩
    simp [alistLookup]
  | some o =>
    have hmem : (k, o) ∈ post := List.mem_reverse.mp (alistLookup_mem hp)
    have hno : ¬ (o = some 0 ∨ o = none) := by
      intro hor
      have hmt : hasMarkerFor post k = true := by
        unfold hasMarkerFor
        rw [List.any_eq_true]
        refine ⟨(k, o), hmem, ?_⟩
        rcases hor with h1 | h1 <;> simp [h1]
      rw [hmk] at hmt
      exact Bool.noConfusion hmt
    cases o with
    | none => exact absurd (Or.inr rfl) hno
    | some w => exact ⟨w, rfl⟩

theorem load_fst {K : Type} [DecidableEq K] (entries : List (K × Option Nat)) :
    (FaucetQueue.load entries).1 =
      (loadLoop ⟨[], [], []⟩ entries.reverse).idx.filterMap
        (fun p => (p.2).map (fun v => (p.1, v))) := rfl

theorem load_snd {K : Type} [DecidableEq K] (entries : List (K × Option Nat)) :
    (FaucetQueue.load entries).2 =
      (loadLoop ⟨[], [], []⟩ entries.reverse).queueRev.reverse.map
        (fun k => (k, (alistLookup ((loadLoop ⟨[], [], []⟩ entries.reverse).idx.filterMap
          (fun p => (p.2).map (fun v => (p.1, v)))) k).getD 0)) := rfl

theorem load_index_lookup {K : Type} [DecidableEq K] (entries : List (K × Option Nat))
    (k : K) :
    alistLookup (FaucetQueue.load entries).1 k = latestValue entries k := by
  rw [load_fst,
    alistLookup_filterMap _ (loadLoop_nodup entries.reverse ⟨[], [], []⟩ (by simp)) k,
    loadLoop_idx]
  unfold latestValue latestEntry
  have hinit : alistLookup (LoadAcc.idx ⟨[], [], []⟩ : List (K × Option Nat)) k = none := rfl
  rw [hinit]

theorem load_channel_keys {K : Type} [DecidableEq K] (entries : List (K × Option Nat)) :
    (FaucetQueue.load entries).2.map Prod.fst = specQueue entries := by
  rw [load_snd, List.map_map]
  have hcomp : (Prod.fst ∘ fun k : K =>
      (k, (alistLookup ((loadLoop ⟨[], [], []⟩ entries.reverse).idx.filterMap
        (fun p => (p.2).map (fun v => (p.1, v)))) k).getD 0)) = id := rfl
  rw [hcomp, List.map_id, (loadLoop_queue entries.reverse ⟨[], [], []⟩).1]
  show ([] ++ enqRev [] entries.reverse).reverse = specQueue entries
  rw [List.nil_append, enqRev_reverse, List.reverse_reverse]

theorem load_channel_values {K : Type} [DecidableEq K] (entries : List (K × Option Nat)) :
    ∀ p ∈ (FaucetQueue.load entries).2,
      alistLookup (FaucetQueue.load entries).1 p.1 = some p.2 := by
  intro p hp
  rw [load_snd] at hp
  rcases List.mem_map.mp hp with ⟨k, hk, hpe⟩
  have hkq : k ∈ specQueue entries := by
    rw [(loadLoop_queue entries.reverse ⟨[], [], []⟩).1] at hk
    show k ∈ specQueue entries
    have : k ∈ ((specQueue entries).reverse).reverse := by
      rw [← enqRev_reverse]
      exact (by simpa using hk)
    rwa [List.reverse_reverse] at this
  rcases latest_of_mem_specQueue hkq with ⟨w, hw⟩
  have hidx : alistLookup (FaucetQueue.load entries).1 k = some w := by
    rw [load_index_lookup]
    unfold latestValue
    rw [hw]
  have hexpr : alistLookup ((loadLoop ⟨[], [], []⟩ entries.reverse).idx.filterMap
      (fun p => (p.2).map (fun v => (p.1, v)))) k = some w := by
    have h2 := hidx
    rw [load_fst] at h2
    exact h2
  rw [← hpe]
  show alistLookup (FaucetQueue.load entries).1 k =
    some ((alistLookup ((loadLoop ⟨[], [], []⟩ entries.reverse).idx.filterMap
      (fun p => (p.2).map (fun v => (p.1, v)))) k).getD 0)
  rw [hexpr, hidx]
  rfl

/-- C3: for every persisted log, load builds an in-memory index that maps
each key to v exactly when the most recent log entry of the key is
Some v; the channel keys are exactly the keys whose most recent Some 0
entry has no more recent None entry, in original oldest-first order as
described by specQueue, each paired with its index value; and on a log
reachable by successful operations from the empty state the channel
holds exactly the keys whose most recent entry is a Some value. -/
theorem FaucetQueue.load_spec {K : Type} [DecidableEq K] (entries : List (K × Option Nat)) :
    (∀ k, alistLookup (FaucetQueue.load entries).1 k = latestValue entries k) ∧
    ((FaucetQueue.load entries).2.map Prod.fst = specQueue entries) ∧
    (∀ p ∈ (FaucetQueue.load entries).2,
      alistLookup (FaucetQueue.load entries).1 p.1 = some p.2) ∧
    (∀ k, k ∈ specQueue entries ↔
      ∃ pre post, entries = pre ++ (k, some 0) :: post ∧ hasMarkerFor post k = false) ∧
    (∀ ops st, runOps (⟨[], []⟩ : FaucetQueueIndex K) ops = some st →
      ∀ k, k ∈ (FaucetQueue.load st.log).2.map Prod.fst ↔
        ∃ v, latestValue st.log k = some v) := by
  refine ⟨load_index_lookup entries, load_channel_keys entries,
    load_channel_values entries, fun k => mem_specQueue entries k, ?_⟩
  intro ops st hrun k
  have hinv := queueInv_runOps ops _ st queueInv_empty hrun
  rw [load_channel_keys]
  constructor
  · intro hk
    rcases latest_of_mem_specQueue hk with ⟨w, hw⟩
    refine ⟨w, ?_⟩
    unfold latestValue
    rw [hw]
  · rintro ⟨v, hv⟩
    exact hinv.2 k v (latestValue_eq_some hv)

/-- Concrete check of C3 on sampleLog and on the log reached by
sampleOps. -/
theorem FaucetQueue.load_spec_witness :
    ((FaucetQueue.load sampleLog).2.map Prod.fst = specQueue sampleLog) ∧
    specQueue sampleLog = [1, 2] ∧
    alistLookup (FaucetQueue.load sampleLog).1 1 = latestValue sampleLog 1 ∧
    latestValue sampleLog 1 = some 2 ∧
    (1 ∈ (FaucetQueue.load sampleSt.log).2.map Prod.fst) :=
  ⟨(FaucetQueue.load_spec sampleLog).2.1,
   by decide,
   (FaucetQueue.load_spec sampleLog).1 1,
   by decide,
   ((FaucetQueue.load_spec (K := Nat) sampleSt.log).2.2.2.2 sampleOps sampleSt
     (by decide) 1).mpr ⟨2, by decide⟩⟩
